import Mathlib

/-!
Verification of the `logical` truth-table library.

This file gives a shallow embedding of the `logical` class found in
`src/logical/logical.py` (the version providing `compiled`): a truth table
is a list of Python integers (the output column, ascending row order), the
arguments of `__call__` and of the constructor are modelled by `Logical.Arg`,
and every distinct `raise` site of the source corresponds to one constructor
of `Logical.PyErr`.
-/

deriving instance DecidableEq for Except

namespace Logical

/-- A Python value supplied to `logical.__call__` or stored in the tuple
given to the constructor: an integer, an iterable of further values, or any
other (non-integer, non-iterable) object. -/
inductive Arg where
  | int (n : Int)
  | iter (elems : List Arg)
  | other

/-- One constructor per distinct raise site of the source. -/
inductive PyErr where
  /-- `TypeError: expecting zero or more integers or a single iterable of integers` -/
  | typeErrorCall
  /-- `ValueError: expecting an integer that is 0 or 1` -/
  | valueErrorBit
  /-- `ValueError: no defined output` -/
  | valueErrorNoOutput
  /-- `ValueError` raised by `list.index` when the row is not found -/
  | valueErrorNotFound
  /-- `IndexError` raised by tuple indexing out of range -/
  | indexError
  /-- `TypeError: all entries in supplied truth table must be integers` -/
  | typeErrorTable
  /-- `ValueError: all integers in supplied truth table must be 0 or 1` -/
  | valueErrorTableBit
  /-- `ValueError: number of elements in supplied truth table must be zero or a power of 2` -/
  | valueErrorTableLen
deriving DecidableEq, Repr

/-- Python `isinstance(a, int)`. -/
def Arg.isInt : Arg → Bool
  | .int _ => true
  | _ => false

/-- Python `a in (0, 1)` (reached only on integers in the source). -/
def Arg.isBit : Arg → Bool
  | .int n => n == 0 || n == 1
  | _ => false

/-- Projection of an integer argument to its value. -/
def Arg.toInt : Arg → Int
  | .int n => n
  | _ => 0

/-- First step of `__call__`: a lone iterable argument is replaced by the
tuple of its elements. -/
def resolveArgs : List Arg → List Arg
  | [Arg.iter elems] => elems
  | arguments => arguments

/-- Python tuple indexing `self[i]`, raising `IndexError` out of range. -/
def tupleGet (self : List Int) (i : Nat) : Except PyErr Int :=
  match self[i]? with
  | some v => .ok v
  | none => .error .indexError

/-- Python `l.index(x)`, raising `ValueError` when `x` does not occur. -/
def listIndex {α : Type} [BEq α] (l : List α) (x : α) : Except PyErr Nat :=
  match l.findIdx? (fun y => y == x) with
  | some i => .ok i
  | none => .error .valueErrorNotFound

/-- Python `itertools.product(*[(0, 1)] * n)`: all rows of `n` bits in
ascending binary-counting order, first coordinate most significant. -/
def product01 : Nat → List (List Int)
  | 0 => [[]]
  | n + 1 => (product01 n).map (fun r => 0 :: r) ++ (product01 n).map (fun r => 1 :: r)

/-- The `arity` method: `0 if len(self) == 0 else int(math.log2(len(self)))`. -/
def arity (self : List Int) : Nat :=
  if self.length = 0 then 0 else Nat.log2 self.length

/-- The `__call__` method of the source, step by step: resolve a lone
iterable, validate that all arguments are integers, validate that all are
0 or 1, reject the zero-length table, then look the row up by its count. -/
def call (self : List Int) (args : List Arg) : Except PyErr Int :=
  let arguments := resolveArgs args
  if !(arguments.all Arg.isInt) then
    .error .typeErrorCall
  else if !(arguments.all Arg.isBit) then
    .error .valueErrorBit
  else if self.length = 0 then
    .error .valueErrorNoOutput
  else
    let row : List Int := arguments.map Arg.toInt
    if row.length = 0 then
      tupleGet self 0
    else if row.length = 1 then
      match listIndex ([0, 1] : List Int) (row.headD 0) with
      | .ok i => tupleGet self i
      | .error e => .error e
    else if row.length = 2 then
      match listIndex ([[0, 0], [0, 1], [1, 0], [1, 1]] : List (List Int)) row with
      | .ok i => tupleGet self i
      | .error e => .error e
    else
      match listIndex (product01 (arity self)) row with
      | .ok i => tupleGet self i
      | .error e => .error e

/-- The static `names` dictionary of the source, in its order. -/
def names : List (List Int × String) :=
  [([], "undef"),
   ([0], "nf"), ([1], "nt"),
   ([0, 0], "uf"), ([0, 1], "id"), ([1, 0], "not"), ([1, 1], "ut"),
   ([0, 0, 0, 0], "bf"), ([0, 0, 0, 1], "and"), ([0, 0, 1, 0], "nimp"),
   ([0, 0, 1, 1], "fst"), ([0, 1, 0, 0], "nif"), ([0, 1, 0, 1], "snd"),
   ([0, 1, 1, 0], "xor"), ([0, 1, 1, 1], "or"), ([1, 0, 0, 0], "nor"),
   ([1, 0, 0, 1], "xnor"), ([1, 0, 1, 0], "nsnd"), ([1, 0, 1, 1], "if"),
   ([1, 1, 0, 0], "nfst"), ([1, 1, 0, 1], "imp"), ([1, 1, 1, 0], "nand"),
   ([1, 1, 1, 1], "bt")]

/-- The `name` method: `dict(logical.names)[self]`; `none` models the
`KeyError` of a failed dictionary lookup. -/
def name (self : List Int) : Option String :=
  (names.find? (fun p => p.1 == self)).map (fun p => p.2)

/-- The `__init__` validation of the source, in its order. -/
def init (t : List Arg) : Except PyErr Unit :=
  if !(t.all Arg.isInt) then
    .error .typeErrorTable
  else if !(t.all Arg.isBit) then
    .error .valueErrorTableBit
  else if t.length ≠ 0 ∧ t.length ≠ 2 ^ Nat.log2 t.length then
    .error .valueErrorTableLen
  else
    .ok ()

/-- Abstract syntax trees produced by `_to_ast`: a constant, or a
conditional testing `x_index == 0` with a branch for each outcome. -/
inductive Ast where
  | const (v : Int)
  | ifExp (index : Nat) (body orelse : Ast)

/-- The recursive builder `_to_ast`, with an explicit fuel parameter
bounding the recursion depth; `none` means the fuel ran out (the source
would still be recursing) or an empty slice was indexed (the source would
raise `IndexError`). -/
def toAstF (self : List Int) : Nat → Nat → Nat → Nat → Option Ast
  | 0, _, _, _ => none
  | fuel + 1, index, lower, upper =>
    let slice := (self.drop lower).take (upper - lower)
    if ((lower : Int) == (upper : Int) - 1) || (slice.dedup.length == 1) then
      match slice.head? with
      | some v => some (Ast.const v)
      | none => none
    else
      match toAstF self fuel (index + 1) lower (upper - (upper - lower) / 2),
            toAstF self fuel (index + 1) (lower + (upper - lower) / 2) upper with
      | some b, some e => some (Ast.ifExp index b e)
      | _, _ => none

/-- Evaluation of a built tree on an argument row: the variable `x_i` is
the `i`-th positional parameter of the compiled function. -/
def Ast.evalOn : Ast → List Int → Int
  | .const v, _ => v
  | .ifExp index body orelse, xs =>
    if xs.getD index 0 == 0 then body.evalOn xs else orelse.evalOn xs

/-- The tree built by `compiled()`: `self._to_ast()` starts at variable 0
on the full range `[0, len(self))`. The fuel `self.length` is enough
whenever the recursion terminates at all. -/
def compiledAst (self : List Int) : Option Ast :=
  toAstF self self.length 0 0 self.length

/-- The `function` attribute produced by `compiled()`, applied to a row. -/
def compiledFun (self : List Int) (row : List Int) : Option Int :=
  (compiledAst self).map (fun t => t.evalOn row)

/-- Position of a row within the ascending binary-counting enumeration of
all rows of its length, most-significant input first (the specification's
canonical row order). -/
def rowIndex (row : List Int) : Nat :=
  row.foldl (fun acc b => 2 * acc + b.toNat) 0

/-- The row consists of 0/1 values only. -/
def BitRow (row : List Int) : Prop :=
  ∀ b ∈ row, b = 0 ∨ b = 1

instance decidableBitRow (row : List Int) : Decidable (BitRow row) :=
  List.decidableBAll _ row

/-! Helper lemmas about the embedding. -/

theorem resolveArgs_map_int (row : List Int) :
    resolveArgs (row.map Arg.int) = row.map Arg.int := by
  match row with
  | [] => rfl
  | [b] => rfl
  | a :: b :: rest => rfl

theorem all_isInt_map_int (row : List Int) :
    (row.map Arg.int).all Arg.isInt = true := by
  simp only [List.all_eq_true, List.mem_map]
  rintro a ⟨b, _, rfl⟩
  rfl

theorem all_isBit_map_int {row : List Int} (hb : BitRow row) :
    (row.map Arg.int).all Arg.isBit = true := by
  simp only [List.all_eq_true, List.mem_map]
  rintro a ⟨b, hbm, rfl⟩
  rcases hb b hbm with h | h <;> simp [Arg.isBit, h]

theorem map_toInt_map_int (row : List Int) :
    (row.map Arg.int).map Arg.toInt = row := by
  rw [List.map_map]
  exact List.map_id'' (fun _ => rfl) row

theorem foldl_rowIndex (l : List Int) (a : Nat) :
    l.foldl (fun acc b => 2 * acc + b.toNat) a = a * 2 ^ l.length + rowIndex l := by
  induction l generalizing a with
  | nil => simp [rowIndex]
  | cons b rest ih =>
    have h1 := ih (2 * a + b.toNat)
    have h2 := ih (2 * 0 + b.toNat)
    simp only [List.foldl_cons, List.length_cons, rowIndex] at *
    rw [h1, h2]
    ring

theorem rowIndex_cons (b : Int) (rest : List Int) :
    rowIndex (b :: rest) = b.toNat * 2 ^ rest.length + rowIndex rest := by
  have h := foldl_rowIndex rest (2 * 0 + b.toNat)
  simp only [rowIndex, List.foldl_cons] at *
  rw [h]
  ring

theorem rowIndex_lt {row : List Int} (hb : BitRow row) :
    rowIndex row < 2 ^ row.length := by
  induction row with
  | nil => simp [rowIndex]
  | cons b rest ih =>
    have hrec := ih (fun x hx => hb x (List.mem_cons_of_mem _ hx))
    rw [rowIndex_cons]
    rcases hb b (List.mem_cons_self _ _) with h | h <;>
      simp only [h, Int.toNat_zero, Int.toNat_one, List.length_cons, pow_succ] <;> omega

theorem mem_product01 {n : Nat} {r : List Int} (h : r ∈ product01 n) : r.length = n := by
  induction n generalizing r with
  | zero =>
    simp only [product01, List.mem_singleton] at h
    simp [h]
  | succ n ih =>
    simp only [product01, List.mem_append, List.mem_map] at h
    rcases h with ⟨s, hs, rfl⟩ | ⟨s, hs, rfl⟩ <;> simp [ih hs]

theorem length_product01 (n : Nat) : (product01 n).length = 2 ^ n := by
  induction n with
  | zero => rfl
  | succ n ih => simp [product01, ih, pow_succ]; ring

theorem cons_beq_cons (a b : Int) (as bs : List Int) :
    (a :: as == b :: bs) = (a == b && as == bs) := rfl

theorem findIdx?_map_cons (c b : Int) (rest : List Int) (P : List (List Int)) :
    (P.map (fun r => c :: r)).findIdx? (fun y => y == b :: rest) =
      if c = b then P.findIdx? (fun y => y == rest) else none := by
  rw [List.findIdx?_map]
  split
  · next h =>
    subst h
    congr 1
    funext r
    simp [Function.comp, cons_beq_cons]
  · next h =>
    rw [List.findIdx?_eq_none_iff]
    intro x _
    simp [Function.comp, cons_beq_cons, h]

theorem product01_findIdx {row : List Int} (hb : BitRow row) :
    (product01 row.length).findIdx? (fun y => y == row) = some (rowIndex row) := by
  induction row with
  | nil => simp [product01, rowIndex]
  | cons b rest ih =>
    have hrec := ih (fun x hx => hb x (List.mem_cons_of_mem _ hx))
    rw [List.length_cons, product01, List.findIdx?_append, findIdx?_map_cons,
      findIdx?_map_cons, rowIndex_cons]
    rcases hb b (List.mem_cons_self _ _) with h | h <;> subst h <;>
      simp [hrec, length_product01, Nat.add_comm]

theorem product01_findIdx_none {n : Nat} {row : List Int} (h : row.length ≠ n) :
    (product01 n).findIdx? (fun y => y == row) = none := by
  rw [List.findIdx?_eq_none_iff]
  intro x hx
  have hlen := mem_product01 hx
  simp only [beq_eq_false_iff_ne, ne_eq]
  rintro rfl
  exact h hlen

theorem log2_two_pow (n : Nat) : Nat.log2 (2 ^ n) = n := by
  rw [Nat.log2_eq_log_two]
  exact Nat.log_pow (by norm_num) n

theorem eq_headD_of_dedup_length_one {l : List Int} (h : l.dedup.length = 1)
    {x : Int} (hx : x ∈ l) : x = l.headD 0 := by
  obtain ⟨a, ha⟩ := List.length_eq_one.mp h
  have hmem : ∀ y ∈ l, y = a := by
    intro y hy
    have hyd : y ∈ l.dedup := List.mem_dedup.mpr hy
    rw [ha] at hyd
    simpa using hyd
  have hh : l.headD 0 ∈ l := by
    cases l with
    | nil => simp at hx
    | cons c cs => simp
  rw [hmem x hx, hmem _ hh]

theorem tupleGet_lt {self : List Int} {i : Nat} (h : i < self.length) :
    tupleGet self i = .ok (self.getD i 0) := by
  simp [tupleGet, List.getElem?_eq_getElem h, List.getD_eq_getElem?_getD]

theorem tupleGet_ge {self : List Int} {i : Nat} (h : self.length ≤ i) :
    tupleGet self i = .error .indexError := by
  simp [tupleGet, List.getElem?_eq_none h]

theorem tupleGet_dichotomy (self : List Int) (i : Nat) :
    tupleGet self i =
      if i < self.length then Except.ok (self.getD i 0)
      else Except.error PyErr.indexError := by
  split
  · next h => exact tupleGet_lt h
  · next h => exact tupleGet_ge (Nat.le_of_not_lt h)

/-- Master characterization of `__call__` on rows of 0/1 integers, for a
table whose length is a power of two: rows of three or more bits whose
length differs from the arity hit the `list.index` lookup failure; every
other row is read off at its binary-counting position, raising `IndexError`
exactly when that position falls outside the table. -/
theorem call_bits_eq (self : List Int) (n : Nat) (hlen : self.length = 2 ^ n)
    {row : List Int} (hb : BitRow row) :
    call self (row.map Arg.int) =
      if 3 ≤ row.length ∧ row.length ≠ n then Except.error PyErr.valueErrorNotFound
      else if rowIndex row < self.length then Except.ok (self.getD (rowIndex row) 0)
      else Except.error PyErr.indexError := by
  have hlen0 : self.length ≠ 0 := by rw [hlen]; positivity
  have hstep : call self (row.map Arg.int) =
      (if row.length = 0 then tupleGet self 0
       else if row.length = 1 then
         match listIndex ([0, 1] : List Int) (row.headD 0) with
         | .ok i => tupleGet self i
         | .error e => Except.error e
       else if row.length = 2 then
         match listIndex ([[0, 0], [0, 1], [1, 0], [1, 1]] : List (List Int)) row with
         | .ok i => tupleGet self i
         | .error e => Except.error e
       else
         match listIndex (product01 (arity self)) row with
         | .ok i => tupleGet self i
         | .error e => Except.error e) := by
    simp only [call, resolveArgs_map_int, all_isInt_map_int, all_isBit_map_int hb,
      map_toInt_map_int, Bool.not_true, Bool.false_eq_true, if_false, if_neg hlen0]
  rw [hstep]
  rcases row with _ | ⟨a, _ | ⟨b, _ | ⟨c, rest⟩⟩⟩
  · have h0 : (0 : Nat) < self.length := Nat.pos_of_ne_zero hlen0
    simp [show rowIndex [] = 0 from rfl, h0, tupleGet_lt h0]
  · have ha := hb a (List.mem_cons_self _ _)
    rcases ha with rfl | rfl
    · have e0 : listIndex ([0, 1] : List Int) ((0 : Int)) = .ok 0 := rfl
      simp only [List.headD_cons, e0, show rowIndex [(0 : Int)] = 0 from rfl,
        List.length_cons, List.length_nil]
      simp [tupleGet_dichotomy]
    · have e1 : listIndex ([0, 1] : List Int) ((1 : Int)) = .ok 1 := rfl
      simp only [List.headD_cons, e1, show rowIndex [(1 : Int)] = 1 from rfl,
        List.length_cons, List.length_nil]
      simp [tupleGet_dichotomy]
  · have ha := hb a (List.mem_cons_self _ _)
    have hbb := hb b (List.mem_cons_of_mem _ (List.mem_cons_self _ _))
    have p00 : listIndex ([[0, 0], [0, 1], [1, 0], [1, 1]] : List (List Int))
        [(0 : Int), 0] = .ok 0 := rfl
    have p01 : listIndex ([[0, 0], [0, 1], [1, 0], [1, 1]] : List (List Int))
        [(0 : Int), 1] = .ok 1 := rfl
    have p10 : listIndex ([[0, 0], [0, 1], [1, 0], [1, 1]] : List (List Int))
        [(1 : Int), 0] = .ok 2 := rfl
    have p11 : listIndex ([[0, 0], [0, 1], [1, 0], [1, 1]] : List (List Int))
        [(1 : Int), 1] = .ok 3 := rfl
    rcases ha with rfl | rfl <;> rcases hbb with rfl | rfl <;>
      simp only [p00, p01, p10, p11, List.length_cons, List.length_nil,
        show rowIndex [(0 : Int), 0] = 0 from rfl,
        show rowIndex [(0 : Int), 1] = 1 from rfl,
        show rowIndex [(1 : Int), 0] = 2 from rfl,
        show rowIndex [(1 : Int), 1] = 3 from rfl] <;>
      simp [tupleGet_dichotomy]
  · have hlength : (a :: b :: c :: rest).length = rest.length + 3 := by
      simp only [List.length_cons]
    have harity : arity self = n := by
      unfold arity
      rw [if_neg hlen0, hlen, log2_two_pow]
    rw [if_neg (by omega), if_neg (by omega), if_neg (by omega), harity]
    by_cases hrl : (a :: b :: c :: rest).length = n
    · have hfind := product01_findIdx hb
      have hlt : rowIndex (a :: b :: c :: rest) < self.length := by
        rw [hlen, ← hrl]
        exact rowIndex_lt hb
      rw [← hrl]
      simp only [listIndex, hfind]
      rw [if_neg (by simp [hrl]), if_pos hlt, tupleGet_lt hlt]
    · have hfind := product01_findIdx_none hrl
      simp only [listIndex, hfind]
      rw [if_pos ⟨by omega, hrl⟩]

/-- Any fuel of at least `upper - lower` is enough for the tree builder on
a nonempty in-bounds range: each recursive call strictly shrinks the range. -/
theorem toAstF_isSome (self : List Int) :
    ∀ fuel index lower upper, lower < upper → upper ≤ self.length →
      upper - lower ≤ fuel → (toAstF self fuel index lower upper).isSome := by
  intro fuel
  induction fuel with
  | zero =>
    intro index lower upper h1 _ h3
    omega
  | succ fuel ih =>
    intro index lower upper h1 h2 h3
    simp only [toAstF]
    split
    · next hcond =>
      have hne : (self.drop lower).take (upper - lower) ≠ [] := by
        have hl : ((self.drop lower).take (upper - lower)).length = upper - lower := by
          simp only [List.length_take, List.length_drop]
          omega
        intro hnil
        rw [hnil] at hl
        simp only [List.length_nil] at hl
        omega
      cases hs : ((self.drop lower).take (upper - lower)).head? with
      | none => exact absurd (List.head?_eq_none_iff.mp hs) hne
      | some v => simp [hs]
    · next hcond =>
      have hd2 : 2 ≤ upper - lower := by
        rw [Bool.or_eq_true, not_or] at hcond
        obtain ⟨hc1, _⟩ := hcond
        rw [beq_iff_eq] at hc1
        have : (lower : Int) ≠ (upper : Int) - 1 := fun h => hc1 (by exact_mod_cast h)
        omega
      have hb1 := ih (index + 1) lower (upper - (upper - lower) / 2)
        (by omega) (by omega) (by omega)
      have hb2 := ih (index + 1) (lower + (upper - lower) / 2) upper
        (by omega) h2 (by omega)
      obtain ⟨t1, ht1⟩ := Option.isSome_iff_exists.mp hb1
      obtain ⟨t2, ht2⟩ := Option.isSome_iff_exists.mp hb2
      rw [ht1, ht2]
      simp

theorem bitRow_sub {xs : List Int} (hb : BitRow xs) (i k : Nat) :
    BitRow ((xs.drop i).take k) :=
  fun x hx => hb x (List.mem_of_mem_drop (List.mem_of_mem_take hx))

/-- Evaluation correctness of the built tree: on the range
`[lower, lower + 2 ^ k)` the subtree rooted at variable `index` reads the
table entry whose offset is the binary value of the `k` input bits starting
at position `index`. -/
theorem toAstF_evalOn (self : List Int) :
    ∀ fuel k index lower t, toAstF self fuel index lower (lower + 2 ^ k) = some t →
      lower + 2 ^ k ≤ self.length →
      ∀ xs : List Int, BitRow xs → index + k ≤ xs.length →
        t.evalOn xs = self.getD (lower + rowIndex ((xs.drop index).take k)) 0 := by
  intro fuel
  induction fuel with
  | zero =>
    intro k index lower t ht
    simp [toAstF] at ht
  | succ fuel ih =>
    intro k index lower t ht hub xs hxs hixs
    simp only [toAstF, Nat.add_sub_cancel_left] at ht
    have hslicelen : ((self.drop lower).take (2 ^ k)).length = 2 ^ k := by
      simp only [List.length_take, List.length_drop]
      omega
    split at ht
    · next hcond =>
      cases hs : ((self.drop lower).take (2 ^ k)).head? with
      | none =>
        rw [hs] at ht
        simp at ht
      | some v =>
        rw [hs] at ht
        simp only [Option.some.injEq] at ht
        subst ht
        have hjlt : rowIndex ((xs.drop index).take k) < 2 ^ k := by
          have hlen : ((xs.drop index).take k).length = k := by
            simp only [List.length_take, List.length_drop]
            omega
          have := rowIndex_lt (bitRow_sub hxs index k)
          rwa [hlen] at this
        have hslice_get : ∀ j, j < 2 ^ k →
            ((self.drop lower).take (2 ^ k)).getD j 0 = self.getD (lower + j) 0 := by
          intro j hj
          simp only [List.getD_eq_getElem?_getD, List.getElem?_take_of_lt hj,
            List.getElem?_drop]
        have hv_head : ((self.drop lower).take (2 ^ k)).headD 0 = v := by
          rw [List.headD_eq_head?_getD, hs]
          rfl
        rw [Bool.or_eq_true] at hcond
        rcases hcond with hc1 | hc2
        · -- the range has a single entry: 2 ^ k = 1
          rw [beq_iff_eq] at hc1
          have hk1 : 2 ^ k = 1 := by omega
          have hk0 : k = 0 := by
            by_contra hk
            exact absurd hk1 (Nat.ne_of_gt (Nat.one_lt_two_pow hk))
          subst hk0
          have hev : Ast.evalOn (Ast.const v) xs = v := rfl
          have hj0 : rowIndex ((xs.drop index).take 0) = 0 := rfl
          rw [hev, hj0, Nat.add_zero]
          have hget := hslice_get 0 (by omega)
          rw [Nat.add_zero] at hget
          rw [← hget]
          cases hsl : (self.drop lower).take (2 ^ 0) with
          | nil =>
            rw [hsl] at hs
            cases hs
          | cons w ws =>
            rw [hsl] at hs
            simp only [List.head?_cons, Option.some.injEq] at hs
            simp [hs]
        · -- all entries in the slice coincide
          rw [beq_iff_eq] at hc2
          have hjlt' : rowIndex ((xs.drop index).take k) <
              ((self.drop lower).take (2 ^ k)).length := by omega
          have hmem : ((self.drop lower).take (2 ^ k)).getD
              (rowIndex ((xs.drop index).take k)) 0 ∈ (self.drop lower).take (2 ^ k) := by
            rw [List.getD_eq_getElem?_getD, List.getElem?_eq_getElem hjlt']
            simp only [Option.getD_some]
            exact List.getElem_mem hjlt'
          have heq := eq_headD_of_dedup_length_one hc2 hmem
          rw [hslice_get _ hjlt, hv_head] at heq
          show v = self.getD (lower + rowIndex ((xs.drop index).take k)) 0
          exact heq.symm
    · next hcond =>
      have hk0 : k ≠ 0 := by
        rintro rfl
        rw [Bool.or_eq_true, not_or] at hcond
        obtain ⟨hc1, _⟩ := hcond
        rw [beq_iff_eq] at hc1
        apply hc1
        push_cast
        ring
      have h2A : 2 ^ k = 2 * 2 ^ (k - 1) := by
        rw [← pow_succ']
        congr 1
        omega
      have hhalf : 2 ^ k / 2 = 2 ^ (k - 1) := by omega
      rw [hhalf] at ht
      have hupL : lower + 2 ^ k - 2 ^ (k - 1) = lower + 2 ^ (k - 1) := by omega
      have hupR : lower + 2 ^ k = (lower + 2 ^ (k - 1)) + 2 ^ (k - 1) := by omega
      rw [hupL] at ht
      cases hL : toAstF self fuel (index + 1) lower (lower + 2 ^ (k - 1)) with
      | none =>
        rw [hL] at ht
        simp at ht
      | some tb =>
        cases hR : toAstF self fuel (index + 1) (lower + 2 ^ (k - 1)) (lower + 2 ^ k) with
        | none =>
          rw [hL, hR] at ht
          simp at ht
        | some te =>
          rw [hL, hR] at ht
          simp only [Option.some.injEq] at ht
          subst ht
          have hidx : index < xs.length := by omega
          have hdrop : xs.drop index = xs.getD index 0 :: xs.drop (index + 1) := by
            rw [List.drop_eq_getElem_cons hidx]
            congr 1
            simp [List.getD_eq_getElem?_getD, List.getElem?_eq_getElem hidx]
          have htake : (xs.drop index).take k =
              xs.getD index 0 :: (xs.drop (index + 1)).take (k - 1) := by
            rw [hdrop]
            cases k with
            | zero => exact absurd rfl hk0
            | succ m => simp [List.take_succ_cons]
          have hlen1 : ((xs.drop (index + 1)).take (k - 1)).length = k - 1 := by
            simp only [List.length_take, List.length_drop]
            omega
          have hmemx : xs.getD index 0 ∈ xs := by
            rw [List.getD_eq_getElem?_getD, List.getElem?_eq_getElem hidx]
            exact List.getElem_mem hidx
          have hxbit := hxs (xs.getD index 0) hmemx
          rw [htake, rowIndex_cons, hlen1]
          rcases hxbit with hx0 | hx1
          · have hev : Ast.evalOn (Ast.ifExp index tb te) xs = tb.evalOn xs := by
              simp only [Ast.evalOn, hx0]
              simp
            rw [hev, ih (k - 1) (index + 1) lower tb hL (by omega) xs hxs (by omega)]
            rw [hx0]
            simp
          · have hev : Ast.evalOn (Ast.ifExp index tb te) xs = te.evalOn xs := by
              simp only [Ast.evalOn, hx1]
              simp
            rw [hupR] at hR
            have hrec := ih (k - 1) (index + 1) (lower + 2 ^ (k - 1)) te hR
              (by omega) xs hxs (by omega)
            rw [hev, hrec, hx1]
            congr 1
            simp only [Int.toNat_one, one_mul]
            omega

theorem arity_pow (self : List Int) (n : Nat) (hlen : self.length = 2 ^ n) :
    arity self = n := by
  unfold arity
  rw [hlen, if_neg (Nat.pos_iff_ne_zero.mp (by positivity)), log2_two_pow]

/-- On a complete table of `2 ^ n` bits, evaluating a matching row of bits
reads the entry at the row's binary-counting position. -/
theorem call_row_eq (self : List Int) (n : Nat) (hlen : self.length = 2 ^ n)
    {row : List Int} (hb : BitRow row) (hr : row.length = n) :
    call self (row.map Arg.int) = .ok (self.getD (rowIndex row) 0) := by
  rw [call_bits_eq self n hlen hb]
  have hlt : rowIndex row < self.length := by
    rw [hlen, ← hr]
    exact rowIndex_lt hb
  rw [if_neg (by simp [hr]), if_pos hlt]

/-- The compiled tree exists and evaluates matching rows of bits to the
entry at the row's binary-counting position. -/
theorem compiledFun_eq (self : List Int) (n : Nat) (hlen : self.length = 2 ^ n)
    {row : List Int} (hb : BitRow row) (hr : row.length = n) :
    compiledFun self row = some (self.getD (rowIndex row) 0) := by
  have hpos : 0 < self.length := by rw [hlen]; positivity
  have hsome := toAstF_isSome self self.length 0 0 self.length hpos le_rfl (by omega)
  obtain ⟨t, ht⟩ := Option.isSome_iff_exists.mp hsome
  have ht' : toAstF self self.length 0 0 (0 + 2 ^ n) = some t := by
    rw [Nat.zero_add, ← hlen]
    exact ht
  have hev := toAstF_evalOn self self.length n 0 0 t ht' (by omega) row hb (by omega)
  rw [compiledFun, compiledAst, ht]
  simp only [Option.map_some']
  rw [hev, List.drop_zero, ← hr, List.take_length, Nat.zero_add]

theorem all_isInt_of_all_isBit {l : List Arg} (h : l.all Arg.isBit = true) :
    l.all Arg.isInt = true := by
  simp only [List.all_eq_true] at *
  intro a ha
  have hb := h a ha
  cases a <;> simp_all [Arg.isBit, Arg.isInt]

theorem resolveArgs_iter (xs : List Arg) : resolveArgs [Arg.iter xs] = xs := rfl

/-- On the empty table, the tree builder makes no progress: the range
`[0, 0)` is passed unchanged to each recursive call, so no amount of fuel
produces a tree (the source recurses forever). -/
theorem toAstF_undef_none :
    ∀ fuel index : Nat, toAstF ([] : List Int) fuel index 0 0 = none := by
  intro fuel
  induction fuel with
  | zero => intro index; rfl
  | succ fuel ih =>
    intro index
    simp only [toAstF]
    rw [if_neg (by decide)]
    norm_num
    rw [ih (index + 1)]

theorem pow2_iff_log2 {m : Nat} :
    m = 2 ^ Nat.log2 m → ∃ k : Nat, m = 2 ^ k :=
  fun h => ⟨Nat.log2 m, h⟩

theorem three_ne_two_pow (k : Nat) : (3 : Nat) ≠ 2 ^ k := by
  match k with
  | 0 => decide
  | 1 => decide
  | (m + 2) =>
    have h4 : 4 ≤ 2 ^ (m + 2) := by
      calc (4 : Nat) = 2 ^ 2 := rfl
      _ ≤ 2 ^ (m + 2) := Nat.pow_le_pow_right (by omega) (by omega)
    omega

/-! The claim theorems. -/

/-- C1: for every operator of length `2 ^ n` and every row of `n` bits, the
procedure produced by `compiled()` (the decision tree built by `_to_ast`,
branching on input variables in depth order with uniform subranges collapsed
to constant leaves) returns exactly the bit that ordinary evaluation via
`__call__` returns on that row. -/
theorem specialization_equivalence (self : List Int) (n : Nat)
    (hlen : self.length = 2 ^ n) (row : List Int) (hb : BitRow row)
    (hr : row.length = n) :
    ∃ b : Int, call self (row.map Arg.int) = .ok b ∧ compiledFun self row = some b :=
  ⟨self.getD (rowIndex row) 0, call_row_eq self n hlen hb hr,
    compiledFun_eq self n hlen hb hr⟩

theorem specialization_equivalence_witness :
    ∃ b : Int, call [1, 0, 0, 1] (([1, 1] : List Int).map Arg.int) = .ok b ∧
      compiledFun [1, 0, 0, 1] [1, 1] = some b :=
  specialization_equivalence [1, 0, 0, 1] 2 (by decide) [1, 1] (by decide) (by decide)

/-- C2: for every operator of length `2 ^ n` and every row of exactly `n`
bits, `__call__` returns the bit stored at the position of the row within
the ascending binary-counting enumeration (most significant input first):
`rowIndex [] = 0`, `rowIndex [b] = b` and `rowIndex [x, y] = 2 * x + y`. -/
theorem round_trip (self : List Int) (n : Nat) (hlen : self.length = 2 ^ n)
    (row : List Int) (hb : BitRow row) (hr : row.length = n) :
    call self (row.map Arg.int) = .ok (self.getD (rowIndex row) 0) :=
  call_row_eq self n hlen hb hr

theorem round_trip_witness :
    call [1, 0, 0, 1] (([1, 0] : List Int).map Arg.int) = .ok 0 := by
  have h := round_trip [1, 0, 0, 1] 2 (by decide) [1, 0] (by decide) (by decide)
  rw [h]
  decide

/-- C3 counterexample: the arity-2 operator AND evaluated on the empty row
(whose length 0 differs from the arity) returns the bit at position 0
instead of signalling any error. -/
theorem arity_mismatch_counterexample :
    ([] : List Int).length ≠ arity [0, 0, 0, 1] ∧
    call [0, 0, 0, 1] ([] : List Arg) = .ok 0 := by
  constructor
  · rw [arity_pow [0, 0, 0, 1] 2 (by decide)]
    decide
  · decide

/-- C3 amended: a mismatched row of bits signals the row-not-found lookup
error exactly when it has three or more entries; a mismatched row of at
most two entries is instead read off at its binary-counting position,
returning a bit when that position is inside the table and an index error
otherwise. -/
theorem arity_mismatch_amended (self : List Int) (n : Nat)
    (hlen : self.length = 2 ^ n) (row : List Int) (hb : BitRow row)
    (hne : row.length ≠ arity self) :
    (3 ≤ row.length → call self (row.map Arg.int) = .error .valueErrorNotFound) ∧
    (row.length ≤ 2 → rowIndex row < self.length →
      call self (row.map Arg.int) = .ok (self.getD (rowIndex row) 0)) ∧
    (row.length ≤ 2 → self.length ≤ rowIndex row →
      call self (row.map Arg.int) = .error .indexError) := by
  rw [arity_pow self n hlen] at hne
  rw [call_bits_eq self n hlen hb]
  refine ⟨fun h3 => ?_, fun h2 hlt => ?_, fun h2 hge => ?_⟩
  · rw [if_pos ⟨h3, hne⟩]
  · rw [if_neg (by omega), if_pos hlt]
  · rw [if_neg (by omega), if_neg (by omega)]

theorem arity_mismatch_amended_witness :
    call [0, 1] (([1, 1] : List Int).map Arg.int) = .error .indexError :=
  (arity_mismatch_amended [0, 1] 1 (by decide) [1, 1] (by decide)
    (by rw [arity_pow [0, 1] 1 (by decide)]; decide)).2.2 (by decide) (by decide)

/-- C4 counterexample: the `names` mapping of the source also contains the
empty bit sequence (mapped to the mnemonic `undef`), so `name()` succeeds
on an operator that is not one of the 22 canonical nullary, unary, or
binary operators. -/
theorem name_lookup_counterexample :
    name ([] : List Int) = some "undef" ∧ ([] : List Int).length = 0 :=
  ⟨rfl, rfl⟩

set_option maxRecDepth 8000 in
/-- C4 amended: `name()` returns a mnemonic exactly for the 23 keys of the
static mapping, namely the empty sequence plus the 2 nullary, 4 unary and
16 binary canonical bit sequences; every other sequence (for example any
operator of arity 3 or higher) fails the dictionary lookup. -/
theorem name_lookup_amended (self : List Int) :
    (name self).isSome = true ↔
      self ∈ ([[], [0], [1], [0, 0], [0, 1], [1, 0], [1, 1],
        [0, 0, 0, 0], [0, 0, 0, 1], [0, 0, 1, 0], [0, 0, 1, 1],
        [0, 1, 0, 0], [0, 1, 0, 1], [0, 1, 1, 0], [0, 1, 1, 1],
        [1, 0, 0, 0], [1, 0, 0, 1], [1, 0, 1, 0], [1, 0, 1, 1],
        [1, 1, 0, 0], [1, 1, 0, 1], [1, 1, 1, 0], [1, 1, 1, 1]] : List (List Int)) := by
  rw [name, Option.isSome_map', List.find?_isSome]
  rw [show ([[], [0], [1], [0, 0], [0, 1], [1, 0], [1, 1],
        [0, 0, 0, 0], [0, 0, 0, 1], [0, 0, 1, 0], [0, 0, 1, 1],
        [0, 1, 0, 0], [0, 1, 0, 1], [0, 1, 1, 0], [0, 1, 1, 1],
        [1, 0, 0, 0], [1, 0, 0, 1], [1, 0, 1, 0], [1, 0, 1, 1],
        [1, 1, 0, 0], [1, 1, 0, 1], [1, 1, 1, 0], [1, 1, 1, 1]] : List (List Int)) =
      names.map Prod.fst from rfl]
  simp only [List.mem_map, beq_iff_eq]

/-- C5: the zero-length operator raises the no-defined-output error on
every row of 0/1 integers, of any length, including the empty row. -/
theorem undefined_operator_call (row : List Int) (hb : BitRow row) :
    call [] (row.map Arg.int) = .error .valueErrorNoOutput := by
  simp [call, resolveArgs_map_int, all_isInt_map_int, all_isBit_map_int hb]

theorem undefined_operator_call_witness :
    call [] (([0, 1] : List Int).map Arg.int) = .error .valueErrorNoOutput :=
  undefined_operator_call [0, 1] (by decide)

/-- C6: construction validation happens in order with distinct errors:
non-integer entries raise the element-type error; otherwise integer entries
outside 0/1 raise the element-value error; otherwise a length that is
neither 0 nor a power of two raises the length error; otherwise
construction succeeds, and in particular the empty sequence succeeds and
yields an operator of arity 0. -/
theorem construction_validation (t : List Arg) :
    (t.all Arg.isInt = false → init t = .error .typeErrorTable) ∧
    (t.all Arg.isInt = true → t.all Arg.isBit = false →
      init t = .error .valueErrorTableBit) ∧
    (t.all Arg.isInt = true → t.all Arg.isBit = true →
      t.length ≠ 0 → (∀ k : Nat, t.length ≠ 2 ^ k) →
      init t = .error .valueErrorTableLen) ∧
    (t.all Arg.isInt = true → t.all Arg.isBit = true →
      (t.length = 0 ∨ ∃ k : Nat, t.length = 2 ^ k) → init t = .ok ()) ∧
    (init ([] : List Arg) = .ok () ∧ arity ([] : List Int) = 0) := by
  refine ⟨fun h1 => by simp [init, h1], fun h1 h2 => by simp [init, h1, h2],
    ?_, ?_, rfl, rfl⟩
  · intro h1 h2 h3 h4
    have hcond : t.length ≠ 0 ∧ t.length ≠ 2 ^ Nat.log2 t.length :=
      ⟨h3, fun he => h4 (Nat.log2 t.length) he⟩
    simp only [init, h1, h2, Bool.not_true, Bool.false_eq_true, if_false]
    rw [if_pos hcond]
  · intro h1 h2 h5
    have hcond : ¬(t.length ≠ 0 ∧ t.length ≠ 2 ^ Nat.log2 t.length) := by
      rcases h5 with h0 | ⟨k, hk⟩
      · intro hc
        exact hc.1 h0
      · intro hc
        exact hc.2 (by rw [hk, log2_two_pow])
    simp only [init, h1, h2, Bool.not_true, Bool.false_eq_true, if_false]
    rw [if_neg hcond]

theorem construction_validation_witness :
    init [Arg.int 1, Arg.int 0, Arg.int 1] = .error .valueErrorTableLen ∧
    init [Arg.other] = .error .typeErrorTable :=
  ⟨(construction_validation [Arg.int 1, Arg.int 0, Arg.int 1]).2.2.1 (by decide)
      (by decide) (by decide) (fun k => three_ne_two_pow k),
   (construction_validation [Arg.other]).1 (by decide)⟩

/-- C7: requesting the compiled variant of the zero-length operator is not
rejected with the no-defined-output error; `_to_ast` is entered on the
empty range `[0, 0)` and passes that same range to every recursive call,
so the construction never completes no matter how much fuel is allowed
(the source recurses without bound). -/
theorem compiled_undef_no_tree :
    (∀ fuel index : Nat, toAstF ([] : List Int) fuel index 0 0 = none) ∧
    compiledAst ([] : List Int) = none :=
  ⟨toAstF_undef_none, rfl⟩

/-- C8: a lone iterable argument holding a row of 0/1 integers is resolved
to that row, so the call behaves exactly as if the integers had been passed
individually — including a length-1 iterable given to a unary operator. -/
theorem lone_iterable_row (self : List Int) (row : List Int) (_hb : BitRow row) :
    call self [Arg.iter (row.map Arg.int)] = call self (row.map Arg.int) := by
  simp only [call, resolveArgs_iter, resolveArgs_map_int]

theorem lone_iterable_row_witness :
    call [0, 1] [Arg.iter (([1] : List Int).map Arg.int)] =
      call [0, 1] (([1] : List Int).map Arg.int) :=
  lone_iterable_row [0, 1] [1] (by decide)

/-- C9: `__call__` validates the resolved arguments before testing for the
zero-length table, so the zero-length operator raises the argument-type
error on a non-integer resolved argument and the argument-value error on an
integer outside 0/1; the no-defined-output error occurs exactly when every
resolved argument is a 0/1 integer. -/
theorem undef_validation_precedence (args : List Arg) :
    ((resolveArgs args).all Arg.isInt = false →
      call [] args = .error .typeErrorCall) ∧
    ((resolveArgs args).all Arg.isInt = true →
      (resolveArgs args).all Arg.isBit = false →
      call [] args = .error .valueErrorBit) ∧
    (call [] args = .error .valueErrorNoOutput ↔
      (resolveArgs args).all Arg.isBit = true) := by
  refine ⟨fun h => by simp [call, h], fun h1 h2 => by simp [call, h1, h2], ?_⟩
  constructor
  · intro hc
    cases hBit : (resolveArgs args).all Arg.isBit with
    | true => rfl
    | false =>
      cases hInt : (resolveArgs args).all Arg.isInt with
      | false =>
        rw [show call [] args = Except.error PyErr.typeErrorCall from by
          simp [call, hInt]] at hc
        simp at hc
      | true =>
        rw [show call [] args = Except.error PyErr.valueErrorBit from by
          simp [call, hInt, hBit]] at hc
        simp at hc
  · intro h
    have hInt := all_isInt_of_all_isBit h
    simp [call, h, hInt]

theorem undef_validation_precedence_witness :
    call [] [Arg.other] = .error .typeErrorCall ∧
    call [] [Arg.int 2] = .error .valueErrorBit ∧
    call [] [Arg.int 1] = .error .valueErrorNoOutput :=
  ⟨(undef_validation_precedence [Arg.other]).1 (by decide),
   (undef_validation_precedence [Arg.int 2]).2.1 (by decide) (by decide),
   (undef_validation_precedence [Arg.int 1]).2.2.mpr (by decide)⟩

/-- C10: the tree builder terminates on every nonempty in-bounds range as
soon as the fuel reaches the range size, because every recursive call
strictly shrinks the range and ranges of size 1 are base cases; hence
`compiled()` terminates on every operator of length at least 1. -/
theorem to_ast_terminates :
    (∀ (self : List Int) (fuel index lower upper : Nat),
        lower < upper → upper ≤ self.length → upper - lower ≤ fuel →
        (toAstF self fuel index lower upper).isSome = true) ∧
    (∀ self : List Int, 1 ≤ self.length → (compiledAst self).isSome = true) :=
  ⟨fun self fuel index lower upper h1 h2 h3 =>
      toAstF_isSome self fuel index lower upper h1 h2 h3,
   fun self h =>
      toAstF_isSome self self.length 0 0 self.length (by omega) le_rfl (by omega)⟩

theorem to_ast_terminates_witness :
    (toAstF [1, 0] 2 0 0 2).isSome = true ∧ (compiledAst [1, 0]).isSome = true :=
  ⟨to_ast_terminates.1 [1, 0] 2 0 0 2 (by decide) (by decide) (by decide),
   to_ast_terminates.2 [1, 0] (by decide)⟩

example : call [1, 0, 0, 1] [Arg.int 0, Arg.int 0] = .ok 1 := by decide
example : call [1, 0, 0, 1] [Arg.int 1, Arg.int 0] = .ok 0 := by decide
example : call [0, 0, 0, 1] ([] : List Arg) = .ok 0 := by decide
example : call [] [Arg.int 0] = .error .valueErrorNoOutput := by decide
example : compiledFun [1, 0, 0, 1] [1, 1] = some 1 := by decide
example : name [] = some "undef" := by decide

end Logical
